import Mathlib

/-!
# Verification of the glass-box Formal Concept Analysis engine

Shallow embedding of the FCA core of the repository:
* `src/glass-box/lca/lca_engine.py`   — `FormalContext`, `NextClosureAlgorithm`,
  `ConceptLattice`, `text_to_context`;
* `src/glass-box/lca/truth_verifier.py` — `TruthVerifier`, `HallucinationDetector`;
* `src/glass-box/config.py`           — `LCA_MAX_CONCEPTS`.

Python sets become `Finset`s, dataclass values become structures, the
`None`-returning `next_closure` becomes an `Option`-valued function, and the
`ValueError` that `max()` raises inside `get_bottom` becomes `Except.error`.
Objects are drawn from a type `G` with decidable equality; attributes from a
linearly ordered type `M` (the Python code fixes the attribute order with
`sorted(context.attributes)`).
-/

set_option maxHeartbeats 1000000
set_option linter.unusedSectionVars false

namespace GlassBox

variable {G M : Type*} [DecidableEq G] [LinearOrder M]

/-- Embedding of the `FormalContext` constructor arguments: a formal context
`K = (G, M, I)` with objects, attributes and the incidence relation
(`lca_engine.py`, class `FormalContext`). -/
structure FormalContext (G M : Type*) where
  objects : Finset G
  attributes : Finset M
  incidence : Finset (G × M)

/-- The lookup table `_attr_objs` of `FormalContext.__init__`: the constructor
only records an incidence pair when both its object and its attribute are
declared, and `get(attr, set())` yields `∅` for an undeclared attribute. -/
def attrObjs (K : FormalContext G M) (m : M) : Finset G :=
  K.objects.filter (fun g => m ∈ K.attributes ∧ (g, m) ∈ K.incidence)

/-- The lookup table `_obj_attrs` of `FormalContext.__init__`. -/
def objAttrs (K : FormalContext G M) (g : G) : Finset M :=
  K.attributes.filter (fun m => g ∈ K.objects ∧ (g, m) ∈ K.incidence)

/-- `FormalContext.derive_extent`: all objects for the empty attribute set,
otherwise the intersection of `_attr_objs[attr]` over the given attributes. -/
def deriveExtent (K : FormalContext G M) (A : Finset M) : Finset G :=
  if h : A = ∅ then K.objects
  else A.inf' (Finset.nonempty_iff_ne_empty.mpr h) (fun m => attrObjs K m)

/-- `FormalContext.derive_intent`: all attributes for the empty object set,
otherwise the intersection of `_obj_attrs[obj]` over the given objects. -/
def deriveIntent (K : FormalContext G M) (E : Finset G) : Finset M :=
  if h : E = ∅ then K.attributes
  else E.inf' (Finset.nonempty_iff_ne_empty.mpr h) (fun g => objAttrs K g)

/-- `FormalContext.closure`: `closure(A) = (A')' = derive_intent(derive_extent(A))`. -/
def closure (K : FormalContext G M) (A : Finset M) : Finset M :=
  deriveIntent K (deriveExtent K A)

/-- `FormalContext.is_closed`: `closure(A) == A`. -/
def isClosed (K : FormalContext G M) (A : Finset M) : Prop :=
  closure K A = A

/-- The effective incidence relation after the constructor's filtering. -/
def inRel (K : FormalContext G M) (g : G) (m : M) : Prop :=
  g ∈ K.objects ∧ m ∈ K.attributes ∧ (g, m) ∈ K.incidence

theorem mem_attrObjs {K : FormalContext G M} {m : M} {g : G} :
    g ∈ attrObjs K m ↔ inRel K g m := by
  unfold attrObjs inRel
  simp only [Finset.mem_filter]

theorem mem_objAttrs {K : FormalContext G M} {g : G} {m : M} :
    m ∈ objAttrs K g ↔ inRel K g m := by
  unfold objAttrs inRel
  simp only [Finset.mem_filter]
  tauto

theorem mem_finset_inf' {β γ : Type*} [DecidableEq β] [DecidableEq γ] {s : Finset β}
    (h : s.Nonempty) (f : β → Finset γ) (a : γ) :
    a ∈ s.inf' h f ↔ ∀ b ∈ s, a ∈ f b := by
  constructor
  · intro ha b hb
    exact Finset.inf'_le f hb ha
  · intro ha
    have hle : ({a} : Finset γ) ≤ s.inf' h f :=
      Finset.le_inf' h _ (fun b hb => Finset.singleton_subset_iff.mpr (ha b hb))
    exact hle (Finset.mem_singleton_self a)

theorem mem_deriveExtent {K : FormalContext G M} {A : Finset M} {g : G} :
    g ∈ deriveExtent K A ↔ g ∈ K.objects ∧ ∀ m ∈ A, inRel K g m := by
  unfold deriveExtent
  split
  · next hA =>
    subst hA
    simp
  · next hA =>
    rw [mem_finset_inf']
    constructor
    · intro hg
      obtain ⟨m₀, hm₀⟩ := Finset.nonempty_iff_ne_empty.mpr hA
      refine ⟨(mem_attrObjs.mp (hg m₀ hm₀)).1, fun m hm => mem_attrObjs.mp (hg m hm)⟩
    · intro ⟨_, hg⟩ m hm
      exact mem_attrObjs.mpr (hg m hm)

theorem mem_deriveIntent {K : FormalContext G M} {E : Finset G} {m : M} :
    m ∈ deriveIntent K E ↔ m ∈ K.attributes ∧ ∀ g ∈ E, inRel K g m := by
  unfold deriveIntent
  split
  · next hE =>
    subst hE
    simp
  · next hE =>
    rw [mem_finset_inf']
    constructor
    · intro hm
      obtain ⟨g₀, hg₀⟩ := Finset.nonempty_iff_ne_empty.mpr hE
      refine ⟨(mem_objAttrs.mp (hm g₀ hg₀)).2.1, fun g hg => mem_objAttrs.mp (hm g hg)⟩
    · intro ⟨_, hm⟩ g hg
      exact mem_objAttrs.mpr (hm g hg)

theorem deriveExtent_subset (K : FormalContext G M) (A : Finset M) :
    deriveExtent K A ⊆ K.objects :=
  fun _ hg => (mem_deriveExtent.mp hg).1

theorem deriveIntent_subset (K : FormalContext G M) (E : Finset G) :
    deriveIntent K E ⊆ K.attributes :=
  fun _ hm => (mem_deriveIntent.mp hm).1

theorem closure_subset (K : FormalContext G M) (A : Finset M) :
    closure K A ⊆ K.attributes :=
  deriveIntent_subset K _

theorem deriveExtent_anti (K : FormalContext G M) {A B : Finset M} (h : A ⊆ B) :
    deriveExtent K B ⊆ deriveExtent K A := by
  intro g hg
  rw [mem_deriveExtent] at hg ⊢
  exact ⟨hg.1, fun m hm => hg.2 m (h hm)⟩

theorem deriveIntent_anti (K : FormalContext G M) {E F : Finset G} (h : E ⊆ F) :
    deriveIntent K F ⊆ deriveIntent K E := by
  intro m hm
  rw [mem_deriveIntent] at hm ⊢
  exact ⟨hm.1, fun g hg => hm.2 g (h hg)⟩

theorem closure_mono (K : FormalContext G M) {A B : Finset M} (h : A ⊆ B) :
    closure K A ⊆ closure K B :=
  deriveIntent_anti K (deriveExtent_anti K h)

/-- Extensivity on in-vocabulary attribute sets. -/
theorem subset_closure_of_subset (K : FormalContext G M) {A : Finset M}
    (h : A ⊆ K.attributes) : A ⊆ closure K A := by
  intro m hm
  rw [closure, mem_deriveIntent]
  exact ⟨h hm, fun g hg => (mem_deriveExtent.mp hg).2 m hm⟩

theorem subset_deriveExtent_deriveIntent (K : FormalContext G M) {E : Finset G}
    (h : E ⊆ K.objects) : E ⊆ deriveExtent K (deriveIntent K E) := by
  intro g hg
  rw [mem_deriveExtent]
  exact ⟨h hg, fun m hm => (mem_deriveIntent.mp hm).2 g hg⟩

theorem deriveIntent_deriveExtent_deriveIntent (K : FormalContext G M) (E : Finset G)
    (h : E ⊆ K.objects) :
    deriveIntent K (deriveExtent K (deriveIntent K E)) = deriveIntent K E := by
  apply Finset.Subset.antisymm
  · exact deriveIntent_anti K (subset_deriveExtent_deriveIntent K h)
  · exact subset_closure_of_subset K (deriveIntent_subset K E)

theorem closure_idem (K : FormalContext G M) (A : Finset M) :
    closure K (closure K A) = closure K A := by
  unfold closure
  exact deriveIntent_deriveExtent_deriveIntent K _ (deriveExtent_subset K A)

theorem isClosed_closure (K : FormalContext G M) (A : Finset M) :
    isClosed K (closure K A) :=
  closure_idem K A

theorem isClosed.subset_attributes {K : FormalContext G M} {A : Finset M}
    (h : isClosed K A) : A ⊆ K.attributes := by
  rw [← h]
  exact closure_subset K A

/-- Out-of-vocabulary behaviour of `derive_extent`: one undeclared attribute in
the query empties the extent, because `_attr_objs.get` falls back to `set()`. -/
theorem deriveExtent_eq_empty_of_not_mem (K : FormalContext G M) {A : Finset M} {a : M}
    (ha : a ∈ A) (hna : a ∉ K.attributes) : deriveExtent K A = ∅ := by
  rw [Finset.eq_empty_iff_forall_not_mem]
  intro g hg
  exact hna ((mem_deriveExtent.mp hg).2 a ha).2.1

theorem closure_of_out_of_domain (K : FormalContext G M) {A : Finset M} {a : M}
    (ha : a ∈ A) (hna : a ∉ K.attributes) : closure K A = K.attributes := by
  rw [closure, deriveExtent_eq_empty_of_not_mem K ha hna]
  unfold deriveIntent
  simp

/-- The context of the out-of-vocabulary examples: one object `0`, one declared
attribute `1`, empty incidence. -/
def ctxA : FormalContext ℕ ℕ := ⟨{0}, {1}, ∅⟩

/-- C3: the claim quantifies over arbitrary attribute sets, but extensivity
fails as soon as `X` mentions an attribute outside the declared vocabulary:
in `ctxA`, `closure({0}) = derive_intent(∅) = {1}`, which does not contain `0`.
This refutes `X ⊆ closure(X)` as stated for all `X`. -/
theorem closure_extensivity_fails_out_of_domain :
    ¬ (({0} : Finset ℕ) ⊆ closure ctxA {0}) := by decide

/-- C3 (amended): `closure = derive_intent ∘ derive_extent` is idempotent and
monotone for all attribute sets, and extensive for every attribute set that is
contained in the context's declared attribute vocabulary. -/
theorem closure_algebra (K : FormalContext G M) (X Y : Finset M) :
    closure K (closure K X) = closure K X
      ∧ (X ⊆ K.attributes → X ⊆ closure K X)
      ∧ (X ⊆ Y → closure K X ⊆ closure K Y) :=
  ⟨closure_idem K X, fun h => subset_closure_of_subset K h, fun h => closure_mono K h⟩

/-- Closed instantiation of `closure_algebra` at a concrete context. -/
theorem closure_algebra_witness :
    closure ctxA (closure ctxA {1}) = closure ctxA {1}
      ∧ ({1} : Finset ℕ) ⊆ closure ctxA {1}
      ∧ closure ctxA {1} ⊆ closure ctxA {1} :=
  ⟨(closure_algebra ctxA {1} {1}).1,
   (closure_algebra ctxA {1} {1}).2.1 (by decide),
   (closure_algebra ctxA {1} {1}).2.2 (by decide)⟩

/-- C10: an attribute set containing an undeclared attribute derives the empty
extent, its closure is the full declared attribute set, and extensivity fails
for it (`lca_engine.py`, `derive_extent` with the `get(attr, set())` fallback
and `derive_intent(∅) = attributes`). -/
theorem out_of_domain_closure (K : FormalContext G M) (X : Finset M) (a : M)
    (ha : a ∈ X) (hna : a ∉ K.attributes) :
    deriveExtent K X = ∅ ∧ closure K X = K.attributes ∧ ¬ X ⊆ closure K X := by
  refine ⟨deriveExtent_eq_empty_of_not_mem K ha hna, closure_of_out_of_domain K ha hna, ?_⟩
  intro hsub
  exact hna (closure_subset K X (hsub ha))

/-- Closed instantiation of `out_of_domain_closure`: in `ctxA` the attribute
`0` is undeclared. -/
theorem out_of_domain_closure_witness :
    deriveExtent ctxA {0} = ∅ ∧ closure ctxA {0} = ctxA.attributes
      ∧ ¬ ({0} : Finset ℕ) ⊆ closure ctxA {0} :=
  out_of_domain_closure ctxA {0} 0 (by decide) (by decide)

/-- Sorting a multiset into an ascending list.  (Mathlib's `Finset.sort` goes
through `List.mergeSort`, whose well-founded recursion the kernel cannot
evaluate; insertion sort is structurally recursive and produces the same list,
a sorted permutation being unique over a linear order.) -/
def sortedList (s : Multiset M) : List M :=
  Quot.liftOn s (fun l => List.insertionSort (· ≤ ·) l) (fun l₁ l₂ h =>
    List.eq_of_perm_of_sorted
      ((List.perm_insertionSort _ l₁).trans (h.trans (List.perm_insertionSort _ l₂).symm))
      (List.sorted_insertionSort _ l₁) (List.sorted_insertionSort _ l₂))

theorem sortedList_coe (l : List M) :
    sortedList (l : Multiset M) = List.insertionSort (· ≤ ·) l := rfl

theorem mem_sortedList {s : Multiset M} {m : M} : m ∈ sortedList s ↔ m ∈ s := by
  induction s using Quot.inductionOn with
  | h l => exact (List.perm_insertionSort _ l).mem_iff

theorem sortedList_sorted (s : Multiset M) : (sortedList s).Sorted (· ≤ ·) := by
  induction s using Quot.inductionOn with
  | h l => exact List.sorted_insertionSort _ l

theorem sortedList_nodup {s : Multiset M} (h : s.Nodup) : (sortedList s).Nodup := by
  induction s using Quot.inductionOn with
  | h l => exact ((List.perm_insertionSort _ l).nodup_iff).mpr h

/-- `NextClosureAlgorithm.__init__`: `attributes_list = sorted(context.attributes)`,
the fixed total order the canonical enumeration relies on. -/
def attributesList (K : FormalContext G M) : List M :=
  sortedList K.attributes.1

theorem mem_attributesList {K : FormalContext G M} {m : M} :
    m ∈ attributesList K ↔ m ∈ K.attributes :=
  mem_sortedList

theorem attributesList_nodup (K : FormalContext G M) : (attributesList K).Nodup :=
  sortedList_nodup K.attributes.nodup

theorem attributesList_sorted_lt (K : FormalContext G M) :
    (attributesList K).Sorted (· < ·) :=
  List.Sorted.lt_of_le (sortedList_sorted K.attributes.1) (attributesList_nodup K)

/-- The scanning loop of `NextClosureAlgorithm.next_closure`.  The Python loop
runs `i` from `len(attributes_list) - 1` down to `0`, so the embedding recurses
over the positions-still-to-scan list (`attributes_list` reversed), keeping the
full list `L` around for the `attributes_list.index(m)` lookups.  Per
iteration: an attribute already in `current` is removed (backtracking),
otherwise the closure of `current ∪ {attr}` is accepted exactly when every
attribute it adds beyond the candidate sits strictly after position `i`
(the code rejects on `m_idx <= i`, and no element of the closure minus the
candidate can have index equal to `i`). -/
def nextClosureAux (K : FormalContext G M) (L : List M) :
    List M → Finset M → Option (Finset M)
  | [], _ => none
  | attr :: rest, current =>
    if attr ∈ current then
      nextClosureAux K L rest (current.erase attr)
    else
      let candidate := insert attr current
      let cl := closure K candidate
      if ∀ m ∈ cl, m ∉ candidate → L.indexOf attr < L.indexOf m then some cl
      else nextClosureAux K L rest current

/-- `NextClosureAlgorithm.next_closure` (returns `None` when `current` is the
last closed set in the canonical order). -/
def nextClosure (K : FormalContext G M) (current : Finset M) : Option (Finset M) :=
  nextClosureAux K (attributesList K) (attributesList K).reverse current

/-- The `FormalConcept` dataclass: an (extent, intent) pair with structural
equality and hashing. -/
structure FormalConcept (G M : Type*) where
  extent : Finset G
  intent : Finset M
deriving DecidableEq

/-- The `while current is not None` loop of
`NextClosureAlgorithm.generate_all_concepts`, emitting
`FormalConcept(derive_extent(current), current)` at each step.  The Python
loop is unbounded; the embedding carries fuel, and
`generateAllConcepts_correct` below shows that, started from `closure(∅)`
with fuel `2 ^ |attributes| + 1`, the enumeration reaches the `None`
terminator before the fuel runs out (the closed sets are pairwise distinct
subsets of the attribute set), so the fuel never truncates the loop. -/
def generateLoop (K : FormalContext G M) : ℕ → Option (Finset M) → List (FormalConcept G M)
  | _, none => []
  | 0, some _ => []
  | fuel + 1, some current =>
    ⟨deriveExtent K current, current⟩ :: generateLoop K fuel (nextClosure K current)

/-- `NextClosureAlgorithm.generate_all_concepts`: start from `closure(set())`
and iterate `next_closure` until it signals termination. -/
def generateAllConcepts (K : FormalContext G M) : List (FormalConcept G M) :=
  generateLoop K (2 ^ K.attributes.card + 1) (some (closure K ∅))

/-- The animals fixture from the `__main__` block of `lca_engine.py`, with
objects dog/cat/bird/fish encoded as `0/1/2/3` and attributes
legs/fur/flies/swims as `0/1/2/3`. -/
def animalsCtx : FormalContext ℕ ℕ :=
  ⟨{0, 1, 2, 3}, {0, 1, 2, 3},
   {(0, 0), (0, 1), (1, 0), (1, 1), (2, 0), (2, 2), (3, 3)}⟩

example : (generateAllConcepts animalsCtx).map FormalConcept.intent =
    [∅, {3}, {0}, {0, 2}, {0, 1}, {0, 1, 2, 3}] := by decide

/-! ### The lectic order on attribute sets

`next_closure` enumerates closed sets in the lectic order induced by
`attributes_list`: `A` precedes `B` iff the smallest attribute on which the
two sets differ belongs to `B`.  Since `attributes_list` is sorted
ascending, list-position comparisons coincide with the order on `M` itself.
To reason about the enumeration we rank each attribute set by reading it as
a binary number whose most significant bits are the smallest attributes. -/

/-- Strict lectic order: the least attribute where `A` and `B` differ lies
in `B`. -/
def lecticLt (A B : Finset M) : Prop :=
  ∃ m, m ∈ B ∧ m ∉ A ∧ ∀ x, x < m → (x ∈ A ↔ x ∈ B)

theorem lecticLt_ne {A B : Finset M} (h : lecticLt A B) : A ≠ B := by
  obtain ⟨m, hmB, hmA, _⟩ := h
  intro hEq
  exact hmA (hEq ▸ hmB)

/-- Number of declared attributes strictly after `m` in the fixed order;
`2 ^ attrPos` is the binary weight of attribute `m`. -/
def attrPos (K : FormalContext G M) (m : M) : ℕ :=
  (K.attributes.filter (fun x => m < x)).card

/-- The numeric value of an attribute set read as a binary number (smallest
attribute = most significant bit).  On subsets of the declared attributes it
is an order isomorphism onto its image for the lectic order. -/
def rank (K : FormalContext G M) (A : Finset M) : ℕ :=
  A.sum (fun m => 2 ^ attrPos K m)

theorem attrPos_lt_of_lt {K : FormalContext G M} {a b : M}
    (hb : b ∈ K.attributes) (hab : a < b) : attrPos K b < attrPos K a := by
  apply Finset.card_lt_card
  constructor
  · intro x hx
    rw [Finset.mem_filter] at hx ⊢
    exact ⟨hx.1, hab.trans hx.2⟩
  · intro hsub
    have hb' : b ∈ K.attributes.filter (fun x => a < x) :=
      Finset.mem_filter.mpr ⟨hb, hab⟩
    exact absurd (Finset.mem_filter.mp (hsub hb')).2 (lt_irrefl b)

theorem rank_mono (K : FormalContext G M) {A B : Finset M} (h : A ⊆ B) :
    rank K A ≤ rank K B :=
  Finset.sum_le_sum_of_subset h

/-- Sum of the weights of attributes all strictly above `m` stays below the
weight of `m` itself. -/
theorem sum_weights_above_lt (K : FormalContext G M) {S : Finset M} {m : M}
    (hS : S ⊆ K.attributes) (hm : ∀ x ∈ S, m < x) :
    (S.sum fun x => 2 ^ attrPos K x) < 2 ^ attrPos K m := by
  have hinj : Set.InjOn (attrPos K) S := by
    intro a ha b hb hab
    by_contra hne
    rcases lt_or_gt_of_ne hne with hlt | hlt
    · exact absurd hab (Nat.ne_of_gt (attrPos_lt_of_lt (hS hb) hlt))
    · exact absurd hab (Nat.ne_of_lt (attrPos_lt_of_lt (hS ha) hlt))
  rw [← Finset.sum_image (fun a ha b hb => hinj ha hb)]
  exact Nat.geomSum_lt le_rfl (by
    intro k hk
    rw [Finset.mem_image] at hk
    obtain ⟨x, hxS, rfl⟩ := hk
    exact attrPos_lt_of_lt (hS hxS) (hm x hxS))

theorem rank_lt_of_lecticLt {K : FormalContext G M} {A B : Finset M}
    (hA : A ⊆ K.attributes) (hB : B ⊆ K.attributes) (h : lecticLt A B) :
    rank K A < rank K B := by
  obtain ⟨m, hmB, hmA, hag⟩ := h
  have hsplitA := Finset.sum_filter_add_sum_filter_not A (fun x => x < m)
    (fun x => 2 ^ attrPos K x)
  have hsplitB := Finset.sum_filter_add_sum_filter_not B (fun x => x < m)
    (fun x => 2 ^ attrPos K x)
  have hfeq : A.filter (fun x => x < m) = B.filter (fun x => x < m) := by
    apply Finset.ext
    intro x
    rw [Finset.mem_filter, Finset.mem_filter]
    constructor
    · intro ⟨hx, hlt⟩
      exact ⟨(hag x hlt).mp hx, hlt⟩
    · intro ⟨hx, hlt⟩
      exact ⟨(hag x hlt).mpr hx, hlt⟩
  have hupper : (A.filter (fun x => ¬ x < m)).sum (fun x => 2 ^ attrPos K x)
      < 2 ^ attrPos K m := by
    apply sum_weights_above_lt K (fun x hx => hA (Finset.mem_filter.mp hx).1)
    intro x hx
    rw [Finset.mem_filter] at hx
    rcases lt_or_eq_of_le (not_lt.mp hx.2) with hlt | hEq
    · exact hlt
    · exact absurd (hEq ▸ hx.1) hmA
  have hlower : 2 ^ attrPos K m ≤ (B.filter (fun x => ¬ x < m)).sum
      (fun x => 2 ^ attrPos K x) := by
    have hmem' : m ∈ B.filter (fun x => ¬ x < m) :=
      Finset.mem_filter.mpr ⟨hmB, lt_irrefl m⟩
    exact Finset.single_le_sum (fun x _ => Nat.zero_le (2 ^ attrPos K x)) hmem'
  calc rank K A
      = (A.filter (fun x => x < m)).sum (fun x => 2 ^ attrPos K x)
          + (A.filter (fun x => ¬ x < m)).sum (fun x => 2 ^ attrPos K x) := hsplitA.symm
    _ < (A.filter (fun x => x < m)).sum (fun x => 2 ^ attrPos K x)
          + 2 ^ attrPos K m := Nat.add_lt_add_left hupper _
    _ ≤ (B.filter (fun x => x < m)).sum (fun x => 2 ^ attrPos K x)
          + (B.filter (fun x => ¬ x < m)).sum (fun x => 2 ^ attrPos K x) := by
        rw [hfeq]
        exact Nat.add_le_add_left hlower _
    _ = rank K B := hsplitB

/-- Any two distinct attribute sets are lectically comparable. -/
theorem lecticLt_total {A B : Finset M} (h : A ≠ B) : lecticLt A B ∨ lecticLt B A := by
  have hne : ((A \ B) ∪ (B \ A)).Nonempty := by
    rw [Finset.nonempty_iff_ne_empty]
    intro hEq
    apply h
    apply Finset.ext
    intro x
    constructor
    · intro hx
      by_contra hxB
      have : x ∈ (A \ B) ∪ (B \ A) := Finset.mem_union_left _ (Finset.mem_sdiff.mpr ⟨hx, hxB⟩)
      simp [hEq] at this
    · intro hx
      by_contra hxA
      have : x ∈ (A \ B) ∪ (B \ A) := Finset.mem_union_right _ (Finset.mem_sdiff.mpr ⟨hx, hxA⟩)
      simp [hEq] at this
  set m := ((A \ B) ∪ (B \ A)).min' hne with hm
  have hmem := Finset.min'_mem ((A \ B) ∪ (B \ A)) hne
  have hag : ∀ x, x < m → (x ∈ A ↔ x ∈ B) := by
    intro x hx
    by_contra hiff
    have hxD : x ∈ (A \ B) ∪ (B \ A) := by
      rw [Finset.mem_union, Finset.mem_sdiff, Finset.mem_sdiff]
      tauto
    exact absurd hx (not_lt.mpr (Finset.min'_le _ _ hxD))
  rw [← hm] at hmem
  rw [Finset.mem_union, Finset.mem_sdiff, Finset.mem_sdiff] at hmem
  rcases hmem with ⟨hmA, hmB⟩ | ⟨hmB, hmA⟩
  · exact Or.inr ⟨m, hmA, hmB, fun x hx => (hag x hx).symm⟩
  · exact Or.inl ⟨m, hmB, hmA, hag⟩

theorem lecticLt_of_rank_lt {K : FormalContext G M} {A B : Finset M}
    (hA : A ⊆ K.attributes) (hB : B ⊆ K.attributes) (h : rank K A < rank K B) :
    lecticLt A B := by
  have hne : A ≠ B := fun hEq => absurd h (hEq ▸ lt_irrefl _)
  rcases lecticLt_total hne with hlt | hlt
  · exact hlt
  · exact absurd h (not_lt.mpr (le_of_lt (rank_lt_of_lecticLt hB hA hlt)))

/-! ### Position bookkeeping on the sorted attribute list

The Python code compares `attributes_list.index(m)` values; on a strictly
sorted list those comparisons agree with the order on the attributes. -/

theorem sorted_lt_indexOf_lt {L : List M} (hL : L.Sorted (· < ·)) :
    ∀ {a b : M}, a ∈ L → b ∈ L → (L.indexOf a < L.indexOf b ↔ a < b) := by
  induction L with
  | nil =>
    intro a b ha _
    exact absurd ha (List.not_mem_nil a)
  | cons c t ih =>
    intro a b ha hb
    rw [List.sorted_cons] at hL
    by_cases hac : a = c
    · subst hac
      by_cases hbc : b = a
      · subst hbc
        simp [lt_irrefl]
      · have hbt : b ∈ t := by
          rcases List.mem_cons.mp hb with h | h
          · exact absurd h hbc
          · exact h
        rw [List.indexOf_cons_self, List.indexOf_cons_ne t (fun h => hbc h.symm)]
        simp [Nat.succ_pos, hL.1 b hbt]
    · have hat : a ∈ t := by
        rcases List.mem_cons.mp ha with h | h
        · exact absurd h hac
        · exact h
      by_cases hbc : b = c
      · subst hbc
        rw [List.indexOf_cons_self, List.indexOf_cons_ne t (fun h => hac h.symm)]
        constructor
        · intro h
          exact absurd h (Nat.not_lt_zero _)
        · intro h
          exact absurd h (not_lt.mpr (le_of_lt (hL.1 a hat)))
      · have hbt : b ∈ t := by
          rcases List.mem_cons.mp hb with h | h
          · exact absurd h hbc
          · exact h
        rw [List.indexOf_cons_ne t (fun h => hac h.symm),
          List.indexOf_cons_ne t (fun h => hbc h.symm), Nat.succ_lt_succ_iff]
        exact ih hL.2 hat hbt

theorem sorted_lt_nodup {L : List M} (h : L.Sorted (· < ·)) : L.Nodup :=
  h.imp ne_of_lt

/-- On a strictly sorted list, the prefix of length `k` holds exactly the
members strictly below the element at position `k`. -/
theorem mem_take_sorted_iff {L : List M} (hL : L.Sorted (· < ·)) {k : ℕ}
    (hk : k < L.length) {x : M} :
    x ∈ L.take k ↔ x ∈ L ∧ x < L[k] := by
  constructor
  · intro hx
    rw [List.mem_take_iff_getElem] at hx
    obtain ⟨i, hi, rfl⟩ := hx
    have hik : i < k := lt_of_lt_of_le (Nat.lt_min.mp hi).1 le_rfl
    refine ⟨List.getElem_mem _, ?_⟩
    exact List.pairwise_iff_getElem.mp hL i k _ hk hik
  · intro ⟨hxL, hxlt⟩
    obtain ⟨i, hi, rfl⟩ := List.mem_iff_getElem.mp hxL
    have hik : i < k := by
      by_contra hik
      rcases lt_or_eq_of_le (not_lt.mp hik) with h | h
      · exact absurd (List.pairwise_iff_getElem.mp hL k i hk hi h)
          (not_lt.mpr (le_of_lt hxlt))
      · subst h
        exact absurd hxlt (lt_irrefl _)
    rw [List.mem_take_iff_getElem]
    exact ⟨i, Nat.lt_min.mpr ⟨hik, hi⟩, rfl⟩

/-! ### Correctness of the `next_closure` scan

The invariant follows the Python loop: when the scan has reached position
`k - 1` (i.e. the positions `k, k+1, …` have been processed), the working set
is the input `A` restricted to the first `k` attributes, and the loop's
remaining behaviour is characterised by the lectic witnesses available among
those first `k` attributes. -/

theorem nextClosureAux_spec (K : FormalContext G M) (L : List M)
    (hsort : L.Sorted (· < ·)) (hmemL : ∀ m : M, m ∈ L ↔ m ∈ K.attributes)
    (A : Finset M) (hA : A ⊆ K.attributes) :
    ∀ k : ℕ, k ≤ L.length →
      (∀ B, nextClosureAux K L ((L.take k).reverse)
            (A.filter (fun x => x ∈ L.take k)) = some B →
          isClosed K B ∧ ∃ m ∈ L.take k, m ∈ B ∧ m ∉ A ∧ ∀ x, x < m → (x ∈ A ↔ x ∈ B))
      ∧ (∀ D, isClosed K D →
          (∃ m ∈ L.take k, m ∈ D ∧ m ∉ A ∧ ∀ x, x < m → (x ∈ A ↔ x ∈ D)) →
          ∃ B, nextClosureAux K L ((L.take k).reverse)
              (A.filter (fun x => x ∈ L.take k)) = some B ∧ rank K B ≤ rank K D) := by
  intro k
  induction k with
  | zero =>
    intro _
    constructor
    · intro B hB
      simp [nextClosureAux] at hB
    · intro D _ hw
      obtain ⟨m, hm, _⟩ := hw
      simp at hm
  | succ k ih =>
    intro hk
    have hklen : k < L.length := hk
    have ihk := ih (le_of_lt hklen)
    have h1 : L.take (k + 1) = L.take k ++ [L[k]] := by
      rw [List.take_succ, List.getElem?_eq_getElem hklen]
      rfl
    have hrev : (L.take (k + 1)).reverse = L[k] :: (L.take k).reverse := by
      rw [h1, List.reverse_append]
      rfl
    have hattrL : L[k] ∈ L := List.getElem_mem hklen
    have hattrK : L[k] ∈ K.attributes := (hmemL _).mp hattrL
    have htake : ∀ x : M, x ∈ L.take k ↔ x ∈ L ∧ x < L[k] :=
      fun x => mem_take_sorted_iff hsort hklen
    have hattr_not_take : L[k] ∉ L.take k := by
      intro h
      exact absurd ((htake _).mp h).2 (lt_irrefl _)
    have hmem_succ : ∀ x : M, x ∈ L.take (k + 1) ↔ x ∈ L.take k ∨ x = L[k] := by
      intro x
      rw [h1, List.mem_append, List.mem_singleton]
    by_cases hattrA : L[k] ∈ A
    · -- Position k holds an attribute of the input: backtracking branch.
      have hcur : L[k] ∈ A.filter (fun x => x ∈ L.take (k + 1)) :=
        Finset.mem_filter.mpr ⟨hattrA, (hmem_succ _).mpr (Or.inr rfl)⟩
      have herase : (A.filter (fun x => x ∈ L.take (k + 1))).erase L[k]
          = A.filter (fun x => x ∈ L.take k) := by
        apply Finset.ext
        intro x
        rw [Finset.mem_erase, Finset.mem_filter, Finset.mem_filter]
        constructor
        · intro ⟨hne, hxA, hxt⟩
          rcases (hmem_succ x).mp hxt with h | h
          · exact ⟨hxA, h⟩
          · exact absurd h hne
        · intro ⟨hxA, hxt⟩
          refine ⟨?_, hxA, (hmem_succ x).mpr (Or.inl hxt)⟩
          intro hEq
          exact hattr_not_take (hEq ▸ hxt)
      have hstep : nextClosureAux K L ((L.take (k + 1)).reverse)
          (A.filter (fun x => x ∈ L.take (k + 1)))
          = nextClosureAux K L ((L.take k).reverse)
              (A.filter (fun x => x ∈ L.take k)) := by
        rw [hrev]
        simp only [nextClosureAux]
        rw [if_pos hcur, herase]
      rw [hstep]
      constructor
      · intro B hB
        obtain ⟨hcl, m, hmtk, hrest⟩ := ihk.1 B hB
        exact ⟨hcl, m, (hmem_succ m).mpr (Or.inl hmtk), hrest⟩
      · intro D hD hw
        obtain ⟨m, hmtk, hmD, hmA, hag⟩ := hw
        rcases (hmem_succ m).mp hmtk with h | h
        · exact ihk.2 D hD ⟨m, h, hmD, hmA, hag⟩
        · subst h
          exact absurd hattrA hmA
    · -- Position k is free: the algorithm closes the candidate and tests it.
      have hfilter_eq : A.filter (fun x => x ∈ L.take (k + 1))
          = A.filter (fun x => x ∈ L.take k) := by
        apply Finset.ext
        intro x
        rw [Finset.mem_filter, Finset.mem_filter]
        constructor
        · intro ⟨hxA, hxt⟩
          rcases (hmem_succ x).mp hxt with h | h
          · exact ⟨hxA, h⟩
          · exact absurd (h ▸ hxA) hattrA
        · intro ⟨hxA, hxt⟩
          exact ⟨hxA, (hmem_succ x).mpr (Or.inl hxt)⟩
      have hnotcur : L[k] ∉ A.filter (fun x => x ∈ L.take k) := by
        intro h
        exact hattrA (Finset.mem_filter.mp h).1
      have hcandsub : insert L[k] (A.filter (fun x => x ∈ L.take k)) ⊆ K.attributes := by
        rw [Finset.insert_subset_iff]
        exact ⟨hattrK, fun x hx => hA (Finset.mem_filter.mp hx).1⟩
      have hclsub : closure K (insert L[k] (A.filter (fun x => x ∈ L.take k)))
          ⊆ K.attributes := closure_subset K _
      have hcandsubcl : insert L[k] (A.filter (fun x => x ∈ L.take k))
          ⊆ closure K (insert L[k] (A.filter (fun x => x ∈ L.take k))) :=
        subset_closure_of_subset K hcandsub
      have hVbridge :
          (∀ m ∈ closure K (insert L[k] (A.filter (fun x => x ∈ L.take k))),
              m ∉ insert L[k] (A.filter (fun x => x ∈ L.take k)) →
              L.indexOf L[k] < L.indexOf m)
          ↔ (∀ m ∈ closure K (insert L[k] (A.filter (fun x => x ∈ L.take k))),
              m ∉ insert L[k] (A.filter (fun x => x ∈ L.take k)) → L[k] < m) := by
        constructor
        · intro h m hm hnm
          exact (sorted_lt_indexOf_lt hsort hattrL ((hmemL m).mpr (hclsub hm))).mp
            (h m hm hnm)
        · intro h m hm hnm
          exact (sorted_lt_indexOf_lt hsort hattrL ((hmemL m).mpr (hclsub hm))).mpr
            (h m hm hnm)
      have hagreeV :
          (∀ m ∈ closure K (insert L[k] (A.filter (fun x => x ∈ L.take k))),
              m ∉ insert L[k] (A.filter (fun x => x ∈ L.take k)) → L[k] < m) →
          ∀ x, x < L[k] →
            (x ∈ A ↔ x ∈ closure K (insert L[k] (A.filter (fun x => x ∈ L.take k)))) := by
        intro hV x hx
        constructor
        · intro hxA
          have hxL : x ∈ L := (hmemL x).mpr (hA hxA)
          have hxtk : x ∈ L.take k := (htake x).mpr ⟨hxL, hx⟩
          exact hcandsubcl (Finset.mem_insert_of_mem (Finset.mem_filter.mpr ⟨hxA, hxtk⟩))
        · intro hxcl
          by_cases hxc : x ∈ insert L[k] (A.filter (fun y => y ∈ L.take k))
          · rcases Finset.mem_insert.mp hxc with h | h
            · exact absurd (h ▸ hx) (lt_irrefl _)
            · exact (Finset.mem_filter.mp h).1
          · exact absurd hx (not_lt.mpr (le_of_lt (hV x hxcl hxc)))
      have hcandD : ∀ D, isClosed K D → L[k] ∈ D →
          (∀ x, x < L[k] → (x ∈ A ↔ x ∈ D)) →
          insert L[k] (A.filter (fun x => x ∈ L.take k)) ⊆ D := by
        intro D hD hattrD hag
        rw [Finset.insert_subset_iff]
        refine ⟨hattrD, ?_⟩
        intro x hx
        rw [Finset.mem_filter] at hx
        exact (hag x ((htake x).mp hx.2).2).mp hx.1
      have hclD : ∀ D, isClosed K D → L[k] ∈ D →
          (∀ x, x < L[k] → (x ∈ A ↔ x ∈ D)) →
          closure K (insert L[k] (A.filter (fun x => x ∈ L.take k))) ⊆ D := by
        intro D hD hattrD hag
        have h := closure_mono K (hcandD D hD hattrD hag)
        rwa [hD] at h
      have hVofD : ∀ D, isClosed K D → L[k] ∈ D →
          (∀ x, x < L[k] → (x ∈ A ↔ x ∈ D)) →
          ∀ m ∈ closure K (insert L[k] (A.filter (fun x => x ∈ L.take k))),
            m ∉ insert L[k] (A.filter (fun x => x ∈ L.take k)) → L[k] < m := by
        intro D hD hattrD hag m hm hnm
        by_contra hlt
        rcases lt_or_eq_of_le (not_lt.mp hlt) with hmlt | hmeq
        · have hmD : m ∈ D := hclD D hD hattrD hag hm
          have hmA : m ∈ A := (hag m hmlt).mpr hmD
          have hmtk : m ∈ L.take k := (htake m).mpr ⟨(hmemL m).mpr (hA hmA), hmlt⟩
          exact hnm (Finset.mem_insert_of_mem (Finset.mem_filter.mpr ⟨hmA, hmtk⟩))
        · subst hmeq
          exact hnm (Finset.mem_insert_self _ _)
      rw [hrev, hfilter_eq]
      simp only [nextClosureAux]
      rw [if_neg hnotcur]
      by_cases hV :
          ∀ m ∈ closure K (insert L[k] (A.filter (fun x => x ∈ L.take k))),
            m ∉ insert L[k] (A.filter (fun x => x ∈ L.take k)) →
            L.indexOf L[k] < L.indexOf m
      · rw [if_pos hV]
        have hV' := hVbridge.mp hV
        constructor
        · intro B hB
          obtain rfl : closure K (insert L[k] (A.filter (fun x => x ∈ L.take k))) = B :=
            Option.some.inj hB
          refine ⟨isClosed_closure K _, L[k], (hmem_succ _).mpr (Or.inr rfl), ?_, hattrA, ?_⟩
          · exact hcandsubcl (Finset.mem_insert_self _ _)
          · exact fun x hx => hagreeV hV' x hx
        · intro D hD hw
          obtain ⟨m, hmtk, hmD, hmA, hag⟩ := hw
          rcases (hmem_succ m).mp hmtk with h | h
          · -- the lectic witness sits strictly below position k: the accepted
            -- closure is itself lectically below D
            have hmlt : m < L[k] := ((htake m).mp h).2
            have hmncl : m ∉ closure K (insert L[k] (A.filter (fun x => x ∈ L.take k))) :=
              fun hc => hmA ((hagreeV hV' m hmlt).mpr hc)
            have hlect : lecticLt
                (closure K (insert L[k] (A.filter (fun x => x ∈ L.take k)))) D := by
              refine ⟨m, hmD, hmncl, ?_⟩
              intro x hx
              have hx' : x < L[k] := hx.trans hmlt
              rw [← hagreeV hV' x hx']
              exact hag x hx
            refine ⟨_, rfl, le_of_lt ?_⟩
            exact rank_lt_of_lecticLt hclsub hD.subset_attributes hlect
          · subst h
            refine ⟨_, rfl, rank_mono K (hclD D hD hmD hag)⟩
      · rw [if_neg hV]
        constructor
        · intro B hB
          obtain ⟨hcl, m, hmtk, hrest⟩ := ihk.1 B hB
          exact ⟨hcl, m, (hmem_succ m).mpr (Or.inl hmtk), hrest⟩
        · intro D hD hw
          obtain ⟨m, hmtk, hmD, hmA, hag⟩ := hw
          rcases (hmem_succ m).mp hmtk with h | h
          · exact ihk.2 D hD ⟨m, h, hmD, hmA, hag⟩
          · subst h
            exact absurd (hVbridge.mpr (hVofD D hD hmD hag)) hV

/-- Soundness of an accepted `next_closure` step: the result is a closed set
lectically above the input. -/
theorem nextClosure_some_spec (K : FormalContext G M) {A B : Finset M}
    (hA : A ⊆ K.attributes) (h : nextClosure K A = some B) :
    isClosed K B ∧ lecticLt A B := by
  have hspec := nextClosureAux_spec K (attributesList K) (attributesList_sorted_lt K)
    (fun m => mem_attributesList) A hA (attributesList K).length le_rfl
  rw [List.take_length] at hspec
  have hAfilter : A.filter (fun x => x ∈ attributesList K) = A := by
    apply Finset.filter_true_of_mem
    intro x hx
    exact mem_attributesList.mpr (hA hx)
  rw [hAfilter] at hspec
  obtain ⟨hcl, m, _, hmB, hmA, hag⟩ := hspec.1 B h
  exact ⟨hcl, m, hmB, hmA, hag⟩

/-- Minimality of an accepted `next_closure` step: no closed set lectically
between the input and the result is skipped. -/
theorem nextClosure_min (K : FormalContext G M) {A D : Finset M}
    (hA : A ⊆ K.attributes) (hD : isClosed K D) (hlt : lecticLt A D) :
    ∃ B, nextClosure K A = some B ∧ rank K B ≤ rank K D := by
  have hspec := nextClosureAux_spec K (attributesList K) (attributesList_sorted_lt K)
    (fun m => mem_attributesList) A hA (attributesList K).length le_rfl
  rw [List.take_length] at hspec
  have hAfilter : A.filter (fun x => x ∈ attributesList K) = A := by
    apply Finset.filter_true_of_mem
    intro x hx
    exact mem_attributesList.mpr (hA hx)
  rw [hAfilter] at hspec
  obtain ⟨m, hmD, hmA, hag⟩ := hlt
  exact hspec.2 D hD ⟨m, mem_attributesList.mpr (hD.subset_attributes hmD), hmD, hmA, hag⟩

/-- The closed attribute sets of a context: exactly the sets obtainable as
closures of attribute subsets. -/
def closedSets (K : FormalContext G M) : Finset (Finset M) :=
  K.attributes.powerset.filter (fun B => closure K B = B)

theorem mem_closedSets {K : FormalContext G M} {B : Finset M} :
    B ∈ closedSets K ↔ isClosed K B := by
  unfold closedSets
  rw [Finset.mem_filter, Finset.mem_powerset]
  constructor
  · intro h
    exact h.2
  · intro h
    exact ⟨h.subset_attributes, h⟩

/-- The closed sets still to be emitted, once the loop has reached `A`. -/
def remaining (K : FormalContext G M) (A : Finset M) : Finset (Finset M) :=
  (closedSets K).filter (fun B => rank K A ≤ rank K B)

theorem lecticLt_of_rank_le_ne {K : FormalContext G M} {A x : Finset M}
    (hA : A ⊆ K.attributes) (hx : x ⊆ K.attributes)
    (hle : rank K A ≤ rank K x) (hne : x ≠ A) : lecticLt A x := by
  rcases lecticLt_total (Ne.symm hne) with h | h
  · exact h
  · exact absurd (lt_of_lt_of_le (rank_lt_of_lecticLt hx hA h) hle) (lt_irrefl _)

/-- The emission loop of `generate_all_concepts`: started at a closed set `A`
with enough fuel, it emits exactly the closed sets lectically at or above `A`,
in strictly increasing lectic order, pairing each intent with its derived
extent. -/
theorem generateLoop_spec (K : FormalContext G M) :
    ∀ fuel (A : Finset M), isClosed K A → (remaining K A).card ≤ fuel →
      (((generateLoop K fuel (some A)).map FormalConcept.intent).toFinset
          = remaining K A)
      ∧ ((generateLoop K fuel (some A)).map FormalConcept.intent).Pairwise lecticLt
      ∧ ∀ c ∈ generateLoop K fuel (some A), c.extent = deriveExtent K c.intent := by
  intro fuel
  induction fuel with
  | zero =>
    intro A hA hcard
    have hAmem : A ∈ remaining K A :=
      Finset.mem_filter.mpr ⟨mem_closedSets.mpr hA, le_rfl⟩
    have := Finset.card_pos.mpr ⟨A, hAmem⟩
    omega
  | succ fuel ih =>
    intro A hA hcard
    have hAattrs := hA.subset_attributes
    cases hnext : nextClosure K A with
    | none =>
      have hrem : remaining K A = {A} := by
        apply Finset.Subset.antisymm
        · intro x hx
          simp only [remaining, Finset.mem_filter] at hx
          rw [Finset.mem_singleton]
          by_contra hne
          have hxc := mem_closedSets.mp hx.1
          have hlt : lecticLt A x :=
            lecticLt_of_rank_le_ne hAattrs hxc.subset_attributes hx.2 hne
          obtain ⟨B, hB, _⟩ := nextClosure_min K hAattrs hxc hlt
          rw [hnext] at hB
          exact Option.noConfusion hB
        · intro x hx
          rw [Finset.mem_singleton] at hx
          subst hx
          exact Finset.mem_filter.mpr ⟨mem_closedSets.mpr hA, le_rfl⟩
      simp only [generateLoop, hnext]
      refine ⟨?_, ?_, ?_⟩
      · simp [hrem]
      · simp
      · intro c hc
        simp only [List.mem_singleton] at hc
        subst hc
        rfl
    | some B =>
      obtain ⟨hBclosed, hABlt⟩ := nextClosure_some_spec K hAattrs hnext
      have hBattrs := hBclosed.subset_attributes
      have hrankAB : rank K A < rank K B := rank_lt_of_lecticLt hAattrs hBattrs hABlt
      have hAnotinB : A ∉ remaining K B := by
        intro h
        simp only [remaining, Finset.mem_filter] at h
        exact absurd (lt_of_lt_of_le hrankAB h.2) (lt_irrefl _)
      have hrem : remaining K A = insert A (remaining K B) := by
        apply Finset.Subset.antisymm
        · intro x hx
          simp only [remaining, Finset.mem_filter] at hx
          rw [Finset.mem_insert]
          by_cases hxA : x = A
          · exact Or.inl hxA
          · right
            have hxc := mem_closedSets.mp hx.1
            have hlt : lecticLt A x :=
              lecticLt_of_rank_le_ne hAattrs hxc.subset_attributes hx.2 hxA
            obtain ⟨B', hB', hrankB'⟩ := nextClosure_min K hAattrs hxc hlt
            rw [hnext] at hB'
            obtain rfl : B' = B := (Option.some.inj hB').symm
            exact Finset.mem_filter.mpr ⟨mem_closedSets.mpr hxc, hrankB'⟩
        · intro x hx
          rw [Finset.mem_insert] at hx
          rcases hx with rfl | hx
          · exact Finset.mem_filter.mpr ⟨mem_closedSets.mpr hA, le_rfl⟩
          · simp only [remaining, Finset.mem_filter] at hx ⊢
            exact ⟨hx.1, le_trans (le_of_lt hrankAB) hx.2⟩
      have hcard2 : (remaining K B).card ≤ fuel := by
        have hc : (remaining K A).card = (remaining K B).card + 1 := by
          rw [hrem, Finset.card_insert_of_not_mem hAnotinB]
        omega
      obtain ⟨ihFin, ihPw, ihExt⟩ := ih B hBclosed hcard2
      have hmem_rest : ∀ x ∈ (generateLoop K fuel (some B)).map FormalConcept.intent,
          x ∈ remaining K B := by
        intro x hx
        rw [← ihFin]
        exact List.mem_toFinset.mpr hx
      constructor
      · simp only [generateLoop, hnext, List.map_cons, List.toFinset_cons, ihFin]
        exact hrem.symm
      constructor
      · simp only [generateLoop, hnext, List.map_cons]
        rw [List.pairwise_cons]
        refine ⟨?_, ihPw⟩
        intro x hx
        have hxrem := hmem_rest x hx
        simp only [remaining, Finset.mem_filter] at hxrem
        have hxc := mem_closedSets.mp hxrem.1
        apply lecticLt_of_rank_lt hAattrs hxc.subset_attributes
        exact lt_of_lt_of_le hrankAB hxrem.2
      · simp only [generateLoop, hnext]
        intro c hc
        rw [List.mem_cons] at hc
        rcases hc with rfl | hc
        · rfl
        · exact ihExt c hc

theorem formalConcept_ext {c d : FormalConcept G M} (h1 : c.extent = d.extent)
    (h2 : c.intent = d.intent) : c = d := by
  cases c
  cases d
  simp only at h1 h2
  rw [h1, h2]

/-- Summary of the enumeration: the emitted intents are exactly the closed
sets, in strictly increasing lectic order, each paired with its derived
extent. -/
theorem generateAllConcepts_summary (K : FormalContext G M) :
    ((generateAllConcepts K).map FormalConcept.intent).toFinset = closedSets K
    ∧ ((generateAllConcepts K).map FormalConcept.intent).Pairwise lecticLt
    ∧ ∀ c ∈ generateAllConcepts K, c.extent = deriveExtent K c.intent := by
  have hstart : isClosed K (closure K ∅) := isClosed_closure K ∅
  have hrem : remaining K (closure K ∅) = closedSets K := by
    apply Finset.Subset.antisymm
    · intro x hx
      simp only [remaining, Finset.mem_filter] at hx
      exact hx.1
    · intro x hx
      refine Finset.mem_filter.mpr ⟨hx, ?_⟩
      have hxc := mem_closedSets.mp hx
      apply rank_mono
      have h1 : closure K ∅ ⊆ closure K x := closure_mono K (Finset.empty_subset x)
      rwa [hxc] at h1
  have hcard : (remaining K (closure K ∅)).card ≤ 2 ^ K.attributes.card + 1 := by
    have h2 : (closedSets K).card ≤ K.attributes.powerset.card :=
      Finset.card_filter_le _ _
    rw [Finset.card_powerset] at h2
    rw [hrem]
    omega
  obtain ⟨hFin, hPw, hExt⟩ :=
    generateLoop_spec K (2 ^ K.attributes.card + 1) (closure K ∅) hstart hcard
  exact ⟨by rw [← hrem]; exact hFin, hPw, hExt⟩

theorem generateAllConcepts_intents_nodup (K : FormalContext G M) :
    ((generateAllConcepts K).map FormalConcept.intent).Nodup :=
  (generateAllConcepts_summary K).2.1.imp (fun h => lecticLt_ne h)

theorem mem_generateAllConcepts_intents (K : FormalContext G M) (B : Finset M) :
    B ∈ (generateAllConcepts K).map FormalConcept.intent ↔ isClosed K B := by
  rw [← List.mem_toFinset, (generateAllConcepts_summary K).1, mem_closedSets]

theorem generateAllConcepts_length (K : FormalContext G M) :
    (generateAllConcepts K).length = (closedSets K).card := by
  have h1 := List.toFinset_card_of_nodup (generateAllConcepts_intents_nodup K)
  rw [(generateAllConcepts_summary K).1] at h1
  rw [h1, List.length_map]

/-- C1: for every finite formal context, `generate_all_concepts` returns
exactly the formal concepts of the context — equivalently, exactly the
closures of all attribute subsets — each emitted exactly once (no duplicate,
none missing), in strictly increasing lectic order of intents with respect to
the fixed sorted attribute order. -/
theorem generateAllConcepts_correct (K : FormalContext G M) :
    (∀ c : FormalConcept G M, c ∈ generateAllConcepts K ↔
        c.extent = deriveExtent K c.intent ∧ c.intent = deriveIntent K c.extent)
    ∧ (generateAllConcepts K).Nodup
    ∧ (∀ B : Finset M,
        B ∈ (generateAllConcepts K).map FormalConcept.intent ↔ isClosed K B)
    ∧ (∀ B : Finset M,
        B ∈ (generateAllConcepts K).map FormalConcept.intent ↔
          ∃ X ∈ K.attributes.powerset, closure K X = B)
    ∧ ((generateAllConcepts K).map FormalConcept.intent).Pairwise lecticLt := by
  obtain ⟨hFin, hPw, hExt⟩ := generateAllConcepts_summary K
  refine ⟨?_, ?_, mem_generateAllConcepts_intents K, ?_, hPw⟩
  · intro c
    constructor
    · intro hc
      have hext := hExt c hc
      have hclosed : isClosed K c.intent := by
        rw [← mem_generateAllConcepts_intents K]
        exact List.mem_map.mpr ⟨c, hc, rfl⟩
      refine ⟨hext, ?_⟩
      have h2 : deriveIntent K c.extent = closure K c.intent := by
        rw [hext, closure]
      rw [h2, hclosed]
    · intro ⟨hext, hint⟩
      have hclosed : isClosed K c.intent := by
        rw [isClosed, closure, ← hext, ← hint]
      have hmem : c.intent ∈ (generateAllConcepts K).map FormalConcept.intent :=
        (mem_generateAllConcepts_intents K _).mpr hclosed
      obtain ⟨c', hc', hc'int⟩ := List.mem_map.mp hmem
      have hc'ext : c'.extent = c.extent := by
        rw [hExt c' hc', hc'int, ← hext]
      have : c' = c := formalConcept_ext hc'ext hc'int
      rwa [← this]
  · exact List.Nodup.of_map _ (generateAllConcepts_intents_nodup K)
  · intro B
    rw [mem_generateAllConcepts_intents K]
    constructor
    · intro h
      exact ⟨B, Finset.mem_powerset.mpr h.subset_attributes, h⟩
    · intro ⟨X, _, hX⟩
      rw [← hX]
      exact isClosed_closure K X

/-- `config.py`: `LCA_MAX_CONCEPTS = 10000  # Safety limit for lattice
generation`.  The constant is declared in the configuration surface but never
imported or consulted by `lca_engine.py`. -/
def LCA_MAX_CONCEPTS : ℕ := 10000

/-- A contranominal scale: `n` objects and `n` attributes, with `(g, m)`
incident exactly when `g ≠ m`.  Every attribute subset is closed, so the
context has `2 ^ n` formal concepts. -/
def contranominal (n : ℕ) : FormalContext ℕ ℕ :=
  ⟨Finset.range n, Finset.range n,
    (Finset.range n ×ˢ Finset.range n).filter (fun p => p.1 ≠ p.2)⟩

theorem contranominal_inRel {n g m : ℕ} :
    inRel (contranominal n) g m ↔ g < n ∧ m < n ∧ g ≠ m := by
  unfold inRel contranominal
  simp only [Finset.mem_range, Finset.mem_filter, Finset.mem_product]
  tauto

theorem contranominal_deriveExtent {n : ℕ} {A : Finset ℕ} (hA : A ⊆ Finset.range n) :
    deriveExtent (contranominal n) A = Finset.range n \ A := by
  apply Finset.ext
  intro g
  rw [mem_deriveExtent, Finset.mem_sdiff]
  constructor
  · intro ⟨hg, hrel⟩
    refine ⟨hg, ?_⟩
    intro hgA
    exact absurd rfl (contranominal_inRel.mp (hrel g hgA)).2.2
  · intro ⟨hg, hgA⟩
    refine ⟨hg, ?_⟩
    intro m hm
    rw [contranominal_inRel]
    refine ⟨Finset.mem_range.mp hg, Finset.mem_range.mp (hA hm), ?_⟩
    intro hEq
    exact hgA (hEq ▸ hm)

theorem contranominal_deriveIntent {n : ℕ} {E : Finset ℕ} (hE : E ⊆ Finset.range n) :
    deriveIntent (contranominal n) E = Finset.range n \ E := by
  apply Finset.ext
  intro m
  rw [mem_deriveIntent, Finset.mem_sdiff]
  constructor
  · intro ⟨hm, hrel⟩
    refine ⟨hm, ?_⟩
    intro hmE
    exact absurd rfl (contranominal_inRel.mp (hrel m hmE)).2.2
  · intro ⟨hm, hmE⟩
    refine ⟨hm, ?_⟩
    intro g hg
    rw [contranominal_inRel]
    refine ⟨Finset.mem_range.mp (hE hg), Finset.mem_range.mp hm, ?_⟩
    intro hEq
    exact hmE (hEq ▸ hg)

theorem contranominal_all_closed {n : ℕ} {A : Finset ℕ} (hA : A ⊆ Finset.range n) :
    closure (contranominal n) A = A := by
  rw [closure]
  have h1 : deriveExtent (contranominal n) A = Finset.range n \ A :=
    contranominal_deriveExtent hA
  rw [h1, contranominal_deriveIntent (Finset.sdiff_subset)]
  rw [Finset.sdiff_sdiff_self_left]
  exact Finset.inter_eq_right.mpr hA

theorem contranominal_closedSets (n : ℕ) :
    closedSets (contranominal n) = (Finset.range n).powerset := by
  unfold closedSets
  apply Finset.filter_true_of_mem
  intro A hA
  exact contranominal_all_closed (Finset.mem_powerset.mp hA)

/-- C2 (code defect): `generate_all_concepts` never consults the configured
ceiling `LCA_MAX_CONCEPTS` — its embedded type is a total function into a
plain list, with no failure path — and on the 14-attribute contranominal
scale it returns all `2 ^ 14 = 16384 > 10000` concepts instead of failing
with a resource-exhaustion error. -/
theorem generation_ignores_concept_ceiling :
    (generateAllConcepts (contranominal 14)).length = 16384
      ∧ LCA_MAX_CONCEPTS < 16384 := by
  constructor
  · rw [generateAllConcepts_length, contranominal_closedSets,
      Finset.card_powerset, Finset.card_range]
    norm_num
  · decide

/-! ### The concept lattice (`ConceptLattice`) -/

/-- The covering-edge relation built by `ConceptLattice.__init__`: an edge
`c1 → c2` is added for concepts of the list iff `c1.intent ⊃ c2.intent`
(Python `c1.intent > c2.intent`, strict superset) and no third concept of the
list has an intent strictly between the two. -/
def hasEdge (l : List (FormalConcept G M)) (c1 c2 : FormalConcept G M) : Prop :=
  c1 ∈ l ∧ c2 ∈ l ∧ c1 ≠ c2 ∧ c2.intent ⊂ c1.intent ∧
    ∀ c3 ∈ l, c3 ≠ c1 → c3 ≠ c2 → ¬(c2.intent ⊂ c3.intent ∧ c3.intent ⊂ c1.intent)

instance (l : List (FormalConcept G M)) (c1 c2 : FormalConcept G M) :
    Decidable (hasEdge l c1 c2) :=
  inferInstanceAs (Decidable (c1 ∈ l ∧ c2 ∈ l ∧ c1 ≠ c2 ∧ c2.intent ⊂ c1.intent ∧
    ∀ c3 ∈ l, c3 ≠ c1 → c3 ≠ c2 → ¬(c2.intent ⊂ c3.intent ∧ c3.intent ⊂ c1.intent)))

/-- Concepts of the list whose intent lies strictly between the intents of
`c2` and `c1` — the obstruction set for a direct edge. -/
def strictlyBetween (l : List (FormalConcept G M)) (c1 c2 : FormalConcept G M) :
    Finset (FormalConcept G M) :=
  l.toFinset.filter (fun c => c2.intent ⊂ c.intent ∧ c.intent ⊂ c1.intent)

theorem hasEdge_of_no_between {l : List (FormalConcept G M)}
    {c1 c2 : FormalConcept G M} (h1 : c1 ∈ l) (h2 : c2 ∈ l)
    (hss : c2.intent ⊂ c1.intent) (hbet : strictlyBetween l c1 c2 = ∅) :
    hasEdge l c1 c2 := by
  refine ⟨h1, h2, ?_, hss, ?_⟩
  · intro hEq
    rw [hEq] at hss
    exact absurd hss (ssubset_irrefl _)
  · intro c3 hc3 _ _ hcon
    have hmem : c3 ∈ strictlyBetween l c1 c2 :=
      Finset.mem_filter.mpr ⟨List.mem_toFinset.mpr hc3, hcon⟩
    rw [hbet] at hmem
    exact absurd hmem (Finset.not_mem_empty c3)

theorem path_of_ssubset (l : List (FormalConcept G M)) :
    ∀ n (c1 c2 : FormalConcept G M), (strictlyBetween l c1 c2).card ≤ n →
      c1 ∈ l → c2 ∈ l → c2.intent ⊂ c1.intent →
      Relation.TransGen (hasEdge l) c1 c2 := by
  intro n
  induction n with
  | zero =>
    intro c1 c2 hcard h1 h2 hss
    have hbet : strictlyBetween l c1 c2 = ∅ := Finset.card_eq_zero.mp (le_antisymm hcard (Nat.zero_le _))
    exact Relation.TransGen.single (hasEdge_of_no_between h1 h2 hss hbet)
  | succ n ih =>
    intro c1 c2 hcard h1 h2 hss
    by_cases hbet : strictlyBetween l c1 c2 = ∅
    · exact Relation.TransGen.single (hasEdge_of_no_between h1 h2 hss hbet)
    · obtain ⟨c3, hc3⟩ := Finset.nonempty_iff_ne_empty.mpr hbet
      rw [strictlyBetween, Finset.mem_filter, List.mem_toFinset] at hc3
      obtain ⟨hc3l, hb1, hb2⟩ := hc3
      have hsub13 : strictlyBetween l c1 c3 ⊂ strictlyBetween l c1 c2 := by
        constructor
        · intro c hc
          rw [strictlyBetween, Finset.mem_filter] at hc ⊢
          exact ⟨hc.1, hb1.trans hc.2.1, hc.2.2⟩
        · intro hsub
          have hc3mem : c3 ∈ strictlyBetween l c1 c2 :=
            Finset.mem_filter.mpr ⟨List.mem_toFinset.mpr hc3l, hb1, hb2⟩
          have := Finset.mem_filter.mp (hsub hc3mem)
          exact absurd this.2.1 (ssubset_irrefl _)
      have hsub32 : strictlyBetween l c3 c2 ⊂ strictlyBetween l c1 c2 := by
        constructor
        · intro c hc
          rw [strictlyBetween, Finset.mem_filter] at hc ⊢
          exact ⟨hc.1, hc.2.1, hc.2.2.trans hb2⟩
        · intro hsub
          have hc3mem : c3 ∈ strictlyBetween l c1 c2 :=
            Finset.mem_filter.mpr ⟨List.mem_toFinset.mpr hc3l, hb1, hb2⟩
          have := Finset.mem_filter.mp (hsub hc3mem)
          exact absurd this.2.2 (ssubset_irrefl _)
      have hcard13 : (strictlyBetween l c1 c3).card ≤ n :=
        Nat.lt_succ_iff.mp (lt_of_lt_of_le (Finset.card_lt_card hsub13) hcard)
      have hcard32 : (strictlyBetween l c3 c2).card ≤ n :=
        Nat.lt_succ_iff.mp (lt_of_lt_of_le (Finset.card_lt_card hsub32) hcard)
      exact (ih c1 c3 hcard13 h1 hc3l hb2).trans (ih c3 c2 hcard32 hc3l h2 hb1)

theorem ssubset_of_path {l : List (FormalConcept G M)} {c1 c2 : FormalConcept G M}
    (h : Relation.TransGen (hasEdge l) c1 c2) : c2.intent ⊂ c1.intent := by
  induction h with
  | single h => exact h.2.2.2.1
  | tail _ hedge ihp => exact hedge.2.2.2.1.trans ihp

/-- C4: in a lattice built from a duplicate-free concept list, strict intent
containment coincides with directed reachability in the covering graph, and
an edge is present exactly when the containment holds with no third concept
strictly between (covering edges only). -/
theorem lattice_order_iff_path (l : List (FormalConcept G M)) (hnd : l.Nodup)
    (c1 c2 : FormalConcept G M) (h1 : c1 ∈ l) (h2 : c2 ∈ l) (hne : c1 ≠ c2) :
    (c2.intent ⊂ c1.intent ↔ Relation.TransGen (hasEdge l) c1 c2)
    ∧ (hasEdge l c1 c2 ↔ (c2.intent ⊂ c1.intent ∧
        ¬ ∃ c3 ∈ l, c3 ≠ c1 ∧ c3 ≠ c2 ∧ c2.intent ⊂ c3.intent ∧ c3.intent ⊂ c1.intent)) := by
  constructor
  · constructor
    · intro hss
      exact path_of_ssubset l (strictlyBetween l c1 c2).card c1 c2 le_rfl h1 h2 hss
    · exact ssubset_of_path
  · constructor
    · intro he
      refine ⟨he.2.2.2.1, ?_⟩
      intro ⟨c3, hc3, hne1, hne2, hb1, hb2⟩
      exact he.2.2.2.2 c3 hc3 hne1 hne2 ⟨hb1, hb2⟩
    · intro ⟨hss, hno⟩
      refine ⟨h1, h2, hne, hss, ?_⟩
      intro c3 hc3 hne1 hne2 hcon
      exact hno ⟨c3, hc3, hne1, hne2, hcon.1, hcon.2⟩

/-- The three-concept chain used to instantiate `lattice_order_iff_path`. -/
def chainConcepts : List (FormalConcept ℕ ℕ) :=
  [⟨∅, {0, 1}⟩, ⟨{0}, {0}⟩, ⟨{0, 1}, ∅⟩]

/-- Closed instantiation of `lattice_order_iff_path` on a three-element
chain. -/
theorem lattice_order_iff_path_witness :
    ((∅ : Finset ℕ) ⊂ ({0, 1} : Finset ℕ) ↔
      Relation.TransGen (hasEdge chainConcepts) ⟨∅, {0, 1}⟩ ⟨{0, 1}, ∅⟩)
    ∧ (hasEdge chainConcepts ⟨∅, {0, 1}⟩ ⟨{0, 1}, ∅⟩ ↔
        ((∅ : Finset ℕ) ⊂ ({0, 1} : Finset ℕ) ∧
          ¬ ∃ c3 ∈ chainConcepts, c3 ≠ (⟨∅, {0, 1}⟩ : FormalConcept ℕ ℕ) ∧
            c3 ≠ (⟨{0, 1}, ∅⟩ : FormalConcept ℕ ℕ) ∧
            (∅ : Finset ℕ) ⊂ c3.intent ∧ c3.intent ⊂ ({0, 1} : Finset ℕ))) :=
  lattice_order_iff_path chainConcepts (by decide) ⟨∅, {0, 1}⟩ ⟨{0, 1}, ∅⟩
    (by decide) (by decide) (by decide)

/-- `ConceptLattice.get_top`: the first concept with empty intent, `None`
when there is none (also on an empty lattice). -/
def getTop (l : List (FormalConcept G M)) : Option (FormalConcept G M) :=
  l.find? (fun c => c.intent.card == 0)

/-- `ConceptLattice.get_bottom`: `max(len(c.intent) for c in self.concepts)`
raises `ValueError` on an empty sequence, modelled as `Except.error`;
otherwise the first concept attaining the maximal intent size is returned. -/
def getBottom (l : List (FormalConcept G M)) : Except String (FormalConcept G M) :=
  match (l.map (fun c => c.intent.card)).max? with
  | none => Except.error ("ValueError: max() arg is an empty sequence")
  | some mx =>
    match l.find? (fun c => c.intent.card == mx) with
    | some c => Except.ok c
    | none => Except.error ("unreachable")

/-- C8 counterexample: on the empty lattice `get_bottom` raises `ValueError`
(`max()` over an empty generator) instead of reporting `None`; this refutes
the claim that neither accessor raises on an empty lattice. -/
theorem get_bottom_raises_on_empty :
    getBottom ([] : List (FormalConcept ℕ ℕ))
      = Except.error ("ValueError: max() arg is an empty sequence") := rfl

/-- C8 (amended): `get_top` returns the first concept with empty intent and
`None` exactly when no concept has an empty intent — which can happen on a
non-empty lattice, as well as on the empty one — never raising; `get_bottom`
returns a concept of maximal intent cardinality when the lattice is
non-empty, and raises `ValueError` on the empty lattice. -/
theorem get_top_get_bottom_behavior (l : List (FormalConcept G M)) :
    (getTop l = none ↔ ∀ c ∈ l, c.intent ≠ ∅)
    ∧ (∀ c, getTop l = some c → c ∈ l ∧ c.intent = ∅)
    ∧ (l ≠ [] → ∃ c, getBottom l = Except.ok c ∧ c ∈ l ∧
        ∀ d ∈ l, d.intent.card ≤ c.intent.card)
    ∧ (l = [] → getBottom l
        = Except.error ("ValueError: max() arg is an empty sequence")) := by
  refine ⟨?_, ?_, ?_, ?_⟩
  · rw [getTop, List.find?_eq_none]
    constructor
    · intro h c hc
      have := h c hc
      simpa [Finset.card_eq_zero] using this
    · intro h c hc
      simpa [Finset.card_eq_zero] using h c hc
  · intro c hc
    rw [getTop] at hc
    refine ⟨List.mem_of_find?_eq_some hc, ?_⟩
    have := List.find?_some hc
    simpa [Finset.card_eq_zero] using this
  · intro hl
    have hmapne : l.map (fun c => c.intent.card) ≠ [] := by
      intro h
      exact hl (List.map_eq_nil_iff.mp h)
    obtain ⟨mx, hmx⟩ : ∃ mx, (l.map (fun c => c.intent.card)).max? = some mx := by
      cases h : (l.map (fun c => c.intent.card)).max? with
      | none => exact absurd (List.max?_eq_none_iff.mp h) hmapne
      | some mx => exact ⟨mx, rfl⟩
    have hmx' := List.max?_eq_some_iff (fun a => Nat.le_refl a)
      (fun a b => max_choice a b) (fun a b c => Nat.max_le) |>.mp hmx
    obtain ⟨hmxmem, hmxub⟩ := hmx'
    obtain ⟨c0, hc0l, hc0card⟩ := List.mem_map.mp hmxmem
    have hfind : ∃ c, l.find? (fun c => c.intent.card == mx) = some c := by
      cases h : l.find? (fun c => c.intent.card == mx) with
      | none =>
        have := List.find?_eq_none.mp h c0 hc0l
        rw [beq_iff_eq] at this
        exact absurd hc0card this
      | some c => exact ⟨c, rfl⟩
    obtain ⟨c, hc⟩ := hfind
    refine ⟨c, ?_, List.mem_of_find?_eq_some hc, ?_⟩
    · simp only [getBottom, hmx, hc]
    · intro d hd
      have hbeq := List.find?_some hc
      rw [beq_iff_eq] at hbeq
      rw [hbeq]
      exact hmxub _ (List.mem_map.mpr ⟨d, hd, rfl⟩)
  · intro hl
    subst hl
    rfl

/-- Closed instantiation of `get_top_get_bottom_behavior` on a one-concept
lattice. -/
theorem get_top_get_bottom_behavior_witness :
    ∃ c, getBottom ([⟨∅, {0}⟩] : List (FormalConcept ℕ ℕ)) = Except.ok c ∧
      c ∈ ([⟨∅, {0}⟩] : List (FormalConcept ℕ ℕ)) ∧
      ∀ d ∈ ([⟨∅, {0}⟩] : List (FormalConcept ℕ ℕ)), d.intent.card ≤ c.intent.card :=
  (get_top_get_bottom_behavior ([⟨∅, {0}⟩] : List (FormalConcept ℕ ℕ))).2.2.1
    (by decide)

/-- `ConceptLattice.calculate_stability_index`: a concept with empty extent
returns `1.0`; otherwise the Monte-Carlo loop draws `samples` random subsets
of the extent but ignores them — `preserved_count += 1  # Placeholder` runs
unconditionally — so the function returns `samples / samples`.  The random
draws have no influence on the value and are omitted from the embedding.
(Python raises `ZeroDivisionError` at `samples = 0`; the total embedding
returns `0` there, a case no caller exercises — the default is `100`.) -/
def calculateStabilityIndex (c : FormalConcept G M) (samples : ℕ) : ℚ :=
  if c.extent = ∅ then 1
  else (samples : ℚ) / (samples : ℚ)

/-- C7 (code defect): the stability stub returns `1` for the animals concept
(extent `{dog, cat, bird}`, intent `{legs}`) at the default 100 samples, even
though the non-empty subset `{dog}` of the extent has derived intent
`{legs, fur} ≠ {legs}`, so a faithful Monte-Carlo trial drawing it would not
count the concept as preserved. -/
theorem stability_index_stub :
    calculateStabilityIndex (⟨{0, 1, 2}, {0}⟩ : FormalConcept ℕ ℕ) 100 = 1
    ∧ (⟨{0, 1, 2}, {0}⟩ : FormalConcept ℕ ℕ) ∈ generateAllConcepts animalsCtx
    ∧ ({0} : Finset ℕ) ⊆ ({0, 1, 2} : Finset ℕ)
    ∧ ({0} : Finset ℕ).Nonempty
    ∧ deriveIntent animalsCtx {0} ≠ ({0} : Finset ℕ) := by
  refine ⟨?_, by decide, by decide, by decide, by decide⟩
  rw [calculateStabilityIndex]
  norm_num

/-! ### `TruthVerifier` and `HallucinationDetector` (`truth_verifier.py`) -/

/-- A concept has a parent when at least one covering edge leaves it
(`lattice.graph.successors(concept)` non-empty). -/
def hasParent (l : List (FormalConcept G M)) (c : FormalConcept G M) : Prop :=
  ∃ p ∈ l, hasEdge l c p

instance (l : List (FormalConcept G M)) (c : FormalConcept G M) :
    Decidable (hasParent l c) :=
  inferInstanceAs (Decidable (∃ p ∈ l, hasEdge l c p))

/-- `TruthVerifier.extract_relationships`: for every concept with at least one
parent in the covering graph, emit every ordered pair of distinct attributes
of its intent.  (The Python loop re-adds the same pair set once per parent;
the result is a set, so one copy suffices.) -/
def extractRelationships (l : List (FormalConcept G M)) : Finset (M × M) :=
  l.toFinset.biUnion (fun c =>
    if hasParent l c then (c.intent ×ˢ c.intent).filter (fun p => p.1 ≠ p.2) else ∅)

theorem mem_extractRelationships {l : List (FormalConcept G M)} {a b : M} :
    (a, b) ∈ extractRelationships l ↔
      ∃ c ∈ l, hasParent l c ∧ a ∈ c.intent ∧ b ∈ c.intent ∧ a ≠ b := by
  unfold extractRelationships
  rw [Finset.mem_biUnion]
  constructor
  · intro ⟨c, hc, hmem⟩
    rw [List.mem_toFinset] at hc
    by_cases hp : hasParent l c
    · rw [if_pos hp] at hmem
      rw [Finset.mem_filter, Finset.mem_product] at hmem
      exact ⟨c, hc, hp, hmem.1.1, hmem.1.2, hmem.2⟩
    · rw [if_neg hp] at hmem
      exact absurd hmem (Finset.not_mem_empty _)
  · intro ⟨c, hc, hp, ha, hb, hab⟩
    refine ⟨c, List.mem_toFinset.mpr hc, ?_⟩
    rw [if_pos hp, Finset.mem_filter, Finset.mem_product]
    exact ⟨⟨ha, hb⟩, hab⟩

/-- Result record of `TruthVerifier.check_topological_isomorphism`, restricted
to the fields the claims are about (validity flag, hallucinated pairs,
confidence; the concept/relationship counts and lattice metrics that the
Python dict also carries are omitted). -/
structure IsomorphismResult (M : Type*) where
  is_valid : Bool
  hallucinated_edges : Finset (M × M)
  confidence : ℚ

/-- Building a lattice from a context and extracting its relationships, as
`build_ground_truth_lattice`/`build_answer_lattice` followed by
`extract_relationships` do. -/
def relationshipsOfContext (K : FormalContext G M) : Finset (M × M) :=
  extractRelationships (generateAllConcepts K)

/-- `TruthVerifier.check_topological_isomorphism` (after both lattices are
built, which `verify` always does): a pair of the answer relationships is
flagged iff it is missing from the ground-truth relationships while both its
attributes occur in the ground-truth vocabulary; confidence is `1.0` when the
answer makes no claims, else the fraction of unflagged relationships;
`is_valid` iff nothing is flagged. -/
def checkTopologicalIsomorphism (gt ans : FormalContext G M) : IsomorphismResult M :=
  let gtRel := relationshipsOfContext gt
  let ansRel := relationshipsOfContext ans
  let hall := ansRel.filter
    (fun p => p ∉ gtRel ∧ p.1 ∈ gt.attributes ∧ p.2 ∈ gt.attributes)
  ⟨decide (hall.card = 0), hall,
    if ansRel.card = 0 then 1
    else ((ansRel.card : ℚ) - (hall.card : ℚ)) / (ansRel.card : ℚ)⟩

/-- C5: the hallucination filter of `check_topological_isomorphism`.  A pair
is flagged iff it is an answer relationship absent from the ground truth with
both attributes in the ground-truth vocabulary — pairs with out-of-vocabulary
attributes are silently excluded — and `is_valid` holds exactly when nothing
is flagged. -/
theorem hallucination_flagging_rule (gt ans : FormalContext G M) (p : M × M) :
    (p ∈ (checkTopologicalIsomorphism gt ans).hallucinated_edges ↔
      (p ∈ relationshipsOfContext ans ∧ p ∉ relationshipsOfContext gt
        ∧ p.1 ∈ gt.attributes ∧ p.2 ∈ gt.attributes))
    ∧ ((checkTopologicalIsomorphism gt ans).is_valid = true ↔
        (checkTopologicalIsomorphism gt ans).hallucinated_edges = ∅) := by
  unfold checkTopologicalIsomorphism
  simp only [Finset.mem_filter, decide_eq_true_eq, Finset.card_eq_zero]
  tauto

/-- C9: the relationship set extracted from any lattice is symmetric — both
orders of a pair are always present together — and consequently so is the
hallucinated set of the verifier. -/
theorem relationships_symmetric (l : List (FormalConcept G M))
    (gt ans : FormalContext G M) (a b : M) :
    ((a, b) ∈ extractRelationships l ↔ (b, a) ∈ extractRelationships l)
    ∧ ((a, b) ∈ (checkTopologicalIsomorphism gt ans).hallucinated_edges ↔
        (b, a) ∈ (checkTopologicalIsomorphism gt ans).hallucinated_edges) := by
  have hsymm : ∀ (l' : List (FormalConcept G M)) (x y : M),
      (x, y) ∈ extractRelationships l' → (y, x) ∈ extractRelationships l' := by
    intro l' x y h
    rw [mem_extractRelationships] at h ⊢
    obtain ⟨c, hc, hp, hx, hy, hxy⟩ := h
    exact ⟨c, hc, hp, hy, hx, fun h => hxy h.symm⟩
  constructor
  · exact ⟨hsymm l a b, hsymm l b a⟩
  · unfold checkTopologicalIsomorphism
    simp only [Finset.mem_filter]
    unfold relationshipsOfContext
    constructor
    · intro ⟨h1, h2, h3, h4⟩
      refine ⟨hsymm _ a b h1, ?_, h4, h3⟩
      intro hgt
      exact h2 (hsymm _ b a hgt)
    · intro ⟨h1, h2, h3, h4⟩
      refine ⟨hsymm _ b a h1, ?_, h4, h3⟩
      intro hgt
      exact h2 (hsymm _ a b hgt)

/-! ### `text_to_context` and the detector pipeline

The tokenizer mirrors `text_to_context`: split the text into sentences at
`.`, `!`, `?` boundaries (Python collapses separator runs; splitting at every
separator produces extra empty segments that the strip-and-drop step removes
identically), strip whitespace, lowercase, and take maximal runs of word
characters (`\w` = letters, digits, underscore; the embedding is
ASCII-faithful) as attributes, with sentence ids `sent_i` as objects. -/

def isSentenceSep (c : Char) : Bool := c == '.' || c == '!' || c == '?'

def isWordChar (c : Char) : Bool := c.isAlphanum || c == '_'

/-- Split a character list at every separator, keeping (possibly empty)
segments, as `re.split` does per match. -/
def splitChars (p : Char → Bool) : List Char → List (List Char)
  | [] => [[]]
  | c :: cs =>
    if p c then [] :: splitChars p cs
    else
      match splitChars p cs with
      | [] => [[c]]
      | w :: ws => (c :: w) :: ws

/-- `str.strip()`: drop leading and trailing whitespace. -/
def trimChars (l : List Char) : List Char :=
  ((l.dropWhile Char.isWhitespace).reverse.dropWhile Char.isWhitespace).reverse

/-- `re.findall(r'\b\w+\b', sentence.lower())`: maximal runs of word
characters, lowercased.  The accumulator holds the current run, reversed. -/
def tokenizeAux : List Char → List Char → List (List Char)
  | [], acc => if acc.isEmpty then [] else [acc.reverse]
  | c :: cs, acc =>
    if isWordChar c then tokenizeAux cs (c.toLower :: acc)
    else if acc.isEmpty then tokenizeAux cs []
    else acc.reverse :: tokenizeAux cs []

/-- `text_to_context`: objects are sentence ids `sent_i`, attributes are the
words, incidence records word-in-sentence occurrence.  Word attributes are
represented by their character lists (`String` is `List Char` up to the
`String.mk` bijection; the lexicographic order on `List Char` compares by
code point exactly as Python compares the word strings in `sorted`, while
Lean's `String` order instance is not kernel-executable). -/
def textToContext (text : String) : FormalContext String (List Char) :=
  let sentences := ((splitChars isSentenceSep text.data).map trimChars).filter
    (fun s => !s.isEmpty)
  let sentenceWords : List (String × List (List Char)) := sentences.enum.map
    (fun p => ("sent_" ++ toString p.1, tokenizeAux p.2 []))
  ⟨(sentenceWords.map Prod.fst).toFinset,
   (sentenceWords.flatMap Prod.snd).toFinset,
   (sentenceWords.flatMap (fun p => p.2.map (fun w => (p.1, w)))).toFinset⟩

/-- `TruthVerifier.verify`: build the ground-truth lattice from the joined
citations and the answer lattice from the answer, then run the isomorphism
check (the metrics added to the result dict are omitted). -/
def verify (citations : List String) (answer : String) :
    IsomorphismResult (List Char) :=
  checkTopologicalIsomorphism (textToContext (String.intercalate (" ") citations))
    (textToContext answer)

/-- `HallucinationDetector.detect`, restricted to the status and confidence
fields of its report (the per-pair finding records and the β₁ advisory
warning are presentation-only and not modelled). -/
def detectStatus (sources : List String) (generatedText : String) : String × ℚ :=
  let r := verify sources generatedText
  (if r.is_valid then "VALID" else "HALLUCINATION_DETECTED", r.confidence)

theorem relationshipsOfContext_empty_answer :
    relationshipsOfContext (textToContext ("")) = ∅ := by decide

/-- C6: `verify` returns confidence `1.0` whenever the answer lattice's
relationship set is empty — in particular the empty answer string yields
detector status `VALID` with confidence `1.0` against any citations — and
otherwise the fraction `(|answer relationships| − |hallucinated|) /
|answer relationships|`. -/
theorem verify_confidence_rule :
    (∀ (citations : List String) (answer : String),
      (relationshipsOfContext (textToContext answer) = ∅ →
        (verify citations answer).confidence = 1)
      ∧ (relationshipsOfContext (textToContext answer) ≠ ∅ →
        (verify citations answer).confidence =
          (((relationshipsOfContext (textToContext answer)).card : ℚ)
            - ((verify citations answer).hallucinated_edges.card : ℚ))
            / ((relationshipsOfContext (textToContext answer)).card : ℚ)))
    ∧ (∀ citations : List String,
        (detectStatus citations ("")).1 = "VALID"
          ∧ (detectStatus citations ("")).2 = 1) := by
  constructor
  · intro citations answer
    constructor
    · intro h
      unfold verify checkTopologicalIsomorphism
      simp [h]
    · intro h
      unfold verify checkTopologicalIsomorphism
      simp only
      rw [if_neg]
      intro hcard
      exact h (Finset.card_eq_zero.mp hcard)
  · intro citations
    have h := relationshipsOfContext_empty_answer
    unfold detectStatus verify checkTopologicalIsomorphism
    simp [h]

/-- Closed instantiation of `verify_confidence_rule`: empty answer (empty
relationship set) and a two-sentence answer with a non-empty relationship
set. -/
theorem verify_confidence_rule_witness :
    (verify [] ("")).confidence = 1
    ∧ (verify [] ("a b. a.")).confidence =
        (((relationshipsOfContext (textToContext ("a b. a."))).card : ℚ)
          - ((verify [] ("a b. a.")).hallucinated_edges.card : ℚ))
          / ((relationshipsOfContext (textToContext ("a b. a."))).card : ℚ) :=
  ⟨(verify_confidence_rule.1 [] ("")).1 (by decide),
   (verify_confidence_rule.1 [] ("a b. a.")).2 (by decide)⟩

end GlassBox
